import Mathlib

/-
Verification of `scikit_tt/data_driven/tedmd.py` (AMUSEt drivers `amuset_hosvd`,
`amuset_hocur` and the helper `_reduced_matrix`).

Shallow embedding conventions:
  * Scalars are `ℚ` (the source computes with IEEE floats; all claims here are
    about the exact dataflow, slicing, truncation, ordering and aliasing logic,
    which is float-representation independent).  Complex scalars (the output of
    `np.linalg.eig`) are pairs `ℚ × ℚ` of real and imaginary part.
  * Dynamically shaped NumPy 2-D arrays are row-major `List (List ℚ)`; the last
    TT core (a 4-index array whose two trailing axes are singletons after
    left-orthonormalization) is `List (List (List (List ℚ)))`.
  * `scipy.linalg.svd` and `np.linalg.eig` are external LAPACK calls; they enter
    the embedding as oracle parameters (`SvdOracle`, `EigOracle`).  Likewise the
    construction of the transformed tensor Ψ (`tdt.basis_decomposition` /
    `tdt.hocur`) and its left-orthonormalization (`TT.ortho_left`) are external
    collaborators: the drivers receive the orthonormalized core list `psiOrtho`
    as input.
  * Python reference semantics relevant to the claims are made explicit:
      - `last_core[:, x_indices, :, :]` with an index *array* is NumPy advanced
        indexing, which allocates a fresh array; hence `overwrite_a=True` in the
        SVD can only clobber that copy, never the captured `last_core` object.
        In the pure embedding this means `reducedMatrix` is simply a function of
        the captured last-core value.
      - `eigentensors_tmp = psi` binds a second name to the *same* TT object;
        `eigentensors_tmp.cores[-1] = newcore` mutates that shared object's core
        list in place.  The loop is therefore modelled with the shared core list
        threaded as state (`amusetLoop`), and the eigentensors returned by a
        driver call, which are all references to this one object, are
        dereferenced at return time: each observed core list is the *final*
        state of the shared object (`amusetBatch`).
      - `s / s[0]` with `s[0] == 0.0` yields NaN entries (a RuntimeWarning, not
        an exception) and `NaN > threshold` is `False`, so no index is retained;
        the embedding's convention `x / 0 = 0` together with `0 ≤ threshold`
        produces exactly the same retained-index set and the same returned
        values, and — like the source — raises no error.
      - `np.argsort` of `np.abs(w - 1)` sorts by the complex modulus `|w i - 1|`;
        sorting by the squared modulus (exact in `ℚ`) yields the same order.
        The embedding uses a stable insertion sort; the claims proved or refuted
        below are insensitive to tie order among equal sort keys.
-/

namespace TEDMD

/-- Row-major dynamically sized vector of rationals (a 1-D NumPy array). -/
abbrev Vec := List ℚ

/-- Row-major dynamically sized matrix of rationals (a 2-D NumPy array). -/
abbrev Mat := List (List ℚ)

/-- Complex scalar as (real part, imaginary part). -/
abbrev Qc := ℚ × ℚ

/-- Dot product of two vectors (extra trailing entries of the longer one are
ignored, matching `zipWith`). -/
def dotL (a b : Vec) : ℚ := (List.zipWith (· * ·) a b).sum

/-- Entry `m[i][j]` with zero padding out of range. -/
def getEntry (m : Mat) (i j : Nat) : ℚ := (m.getD i []).getD j 0

/-- Number of rows. -/
def numRows (m : Mat) : Nat := m.length

/-- Number of columns (length of the first row; rectangular matrices only). -/
def numCols (m : Mat) : Nat := (m.headD []).length

/-- Column `j` of a matrix. -/
def col (m : Mat) (j : Nat) : Vec := m.map (fun r => r.getD j 0)

/-- Matrix transpose. -/
def transpose (m : Mat) : Mat := (List.range (numCols m)).map (fun j => col m j)

/-- Matrix product (`np.dot`). -/
def matMul (a b : Mat) : Mat :=
  a.map (fun r => (List.range (numCols b)).map (fun j => dotL r (col b j)))

/-- Diagonal matrix from a vector (`np.diag`). -/
def diagM (s : Vec) : Mat :=
  (List.range s.length).map (fun i =>
    (List.range s.length).map (fun j => if i = j then s.getD i 0 else 0))

/-- Elementwise reciprocal (`np.reciprocal`).  On the retained singular values
this is only ever applied to strictly positive entries. -/
def recipV (s : Vec) : Vec := s.map (fun x => x⁻¹)

/-- Column selection by an index list (`m[:, idx]`, NumPy advanced indexing:
the result is a fresh array). -/
def selCols (m : Mat) (idx : List Nat) : Mat :=
  m.map (fun r => idx.map (fun j => r.getD j 0))

/-- Row selection by an index list (`m[idx, :]`). -/
def selRows (m : Mat) (idx : List Nat) : Mat := idx.map (fun i => m.getD i [])

/-- A 4-index TT core of shape (bond, snapshots, 1, 1): the last core of the
left-orthonormalized Ψ. -/
abbrev Core4 := List (List (List (List ℚ)))

/-- Reshape a matrix to a 4-index core with two trailing singleton axes
(`arr[:, :, None, None]`). -/
def core4OfMat (m : Mat) : Core4 := m.map (fun r => r.map (fun x => [[x]]))

/-- Remove the two trailing singleton axes (`np.squeeze` on a (r, k, 1, 1)
array with r, k > 1). -/
def squeeze (c : Core4) : Mat := c.map (fun r => r.map (fun e => (e.getD 0 []).getD 0 0))

/-- Index the snapshot axis of the last core (`last_core[:, idx, :, :]`,
advanced indexing: allocates a copy). -/
def selSnapshots (c : Core4) (idx : List Nat) : Core4 :=
  c.map (fun r => idx.map (fun j => r.getD j []))

/-- The squeezed 2-D slice of the last core at a snapshot index set: the
`psi_x_last` / `psi_y_last` of `_reduced_matrix`. -/
def sliceAt (lastCore : Core4) (idx : List Nat) : Mat := squeeze (selSnapshots lastCore idx)

/-- External SVD (`scipy.linalg.svd(..., full_matrices=False)`): a map from the
input matrix to factors `(u, s, v)`. -/
abbrev SvdOracle := Mat → Mat × Vec × Mat

/-- External dense eigensolver (`np.linalg.eig`): a map from the input matrix to
`(eigenvalues, eigenvector matrix)`, both complex, with eigenvector `i` stored
in column `i`. -/
abbrev EigOracle := Mat → List Qc × List (List Qc)

/-- Result record of `_reduced_matrix`. -/
structure RMOut where
  matrix : Mat
  u : Mat
  s : Vec
  v : Mat
deriving DecidableEq

/-- The retained-index computation `np.where(s / s[0] > threshold)[0]`
(elementwise ratio against the largest singular value, strict comparison). -/
def whereGt (s : Vec) (t : ℚ) : List Nat :=
  (List.range s.length).filter (fun i => decide (t < s.getD i 0 / s.getD 0 0))

/-- Shallow embedding of `_reduced_matrix(last_core, x_indices, y_indices,
threshold)` (source lines 198–211), with the SVD supplied by an oracle. -/
def reducedMatrix (svd : SvdOracle) (lastCore : Core4) (xIdx yIdx : List Nat) (t : ℚ) : RMOut :=
  let psiX := sliceAt lastCore xIdx
  let psiY := sliceAt lastCore yIdx
  let u := (svd psiX).1
  let s := (svd psiX).2.1
  let v := (svd psiX).2.2
  let indices := whereGt s t
  let u2 := selCols u indices
  let s2 := indices.map (fun i => s.getD i 0)
  let v2 := selRows v indices
  ⟨matMul (matMul (matMul v2 (transpose psiY)) u2) (diagM (recipV s2)), u2, s2, v2⟩

/-- Squared distance of a complex number to 1: the (squared) sort key
`np.abs(eigenvalues - 1)` of the driver. -/
def dist1Sq (z : Qc) : ℚ := (z.1 - 1) ^ 2 + z.2 ^ 2

/-- The reordering permutation `idx = np.abs(w - 1).argsort()` (source line 69),
as a sorted index list. -/
def argsortDist1 (w : List Qc) : List Nat :=
  List.insertionSort
    (fun i j => dist1Sq (w.getD i (0, 0)) ≤ dist1Sq (w.getD j (0, 0)))
    (List.range w.length)

/-- The real-coerced reordered eigenvalues `np.real(w[idx])` (source line 70). -/
def realsReordered (w : List Qc) : Vec :=
  (argsortDist1 w).map (fun i => (w.getD i (0, 0)).1)

/-- The real-coerced reordered eigenvector matrix `np.real(v[:, idx])`
(source line 71). -/
def vecsReordered (w : List Qc) (vecs : List (List Qc)) : Mat :=
  vecs.map (fun row => (argsortDist1 w).map (fun j => (row.getD j (0, 0)).1))

/-- One pair's worth of results inside the driver loop. -/
structure IterOut where
  eigenvalues : Vec
  newcore : Core4
deriving DecidableEq

/-- One iteration of the per-pair loop of either driver (source lines 64–75):
reduced matrix, eigen-solve, reorder/real-coerce, and the reconstructed last
core `u.dot(np.diag(np.reciprocal(s))).dot(eigenvectors_reduced)[:, :, None, None]`. -/
def amusetIter (svd : SvdOracle) (eig : EigOracle) (lastCore : Core4)
    (xI yI : List Nat) : IterOut :=
  let rm := reducedMatrix svd lastCore xI yI (1 / 1000)
  let w := (eig rm.matrix).1
  let vecs := (eig rm.matrix).2
  ⟨realsReordered w,
    core4OfMat (matMul (matMul rm.u (diagM (recipV rm.s))) (vecsReordered w vecs))⟩

/-- The driver loop (source lines 63–79).  `psiCores` is the core list of the
single shared TT object `psi`; each iteration computes its results from the
`last_core` captured before the loop and then overwrites `psi.cores[-1]` in
place.  Returns the accumulated eigenvalue arrays and the final state of the
shared core list. -/
def amusetLoop (svd : SvdOracle) (eig : EigOracle) (lastCore : Core4)
    (pairs : List (List Nat × List Nat)) (psiCores : List Core4) :
    List Vec × List Core4 :=
  match pairs with
  | [] => ([], psiCores)
  | p :: rest =>
      let it := amusetIter svd eig lastCore p.1 p.2
      let out := amusetLoop svd eig lastCore rest (psiCores.set (psiCores.length - 1) it.newcore)
      (it.eigenvalues :: out.1, out.2)

/-- The batch portion of either driver, i.e. everything after Ψ has been built
and left-orthonormalized (source lines 54–79).  The returned eigentensors are
the appended references `eigentensors.append(eigentensors_tmp)` where
`eigentensors_tmp = psi` is the one shared TT object; dereferencing them at
return time yields, for every pair, the *final* state of the shared core
list. -/
def amusetBatch (svd : SvdOracle) (eig : EigOracle) (psiOrtho : List Core4)
    (pairs : List (List Nat × List Nat)) : List Vec × List (List Core4) :=
  let lastCore := psiOrtho.getD (psiOrtho.length - 1) []
  let out := amusetLoop svd eig lastCore pairs psiOrtho
  (out.1, pairs.map (fun _ => out.2))

/-- The dynamic type of the `x_indices`/`y_indices` arguments: either a bare
index array or a list of pairs of index arrays. -/
inductive IdxArg where
  | arr : List Nat → List Nat → IdxArg
  | lst : List (List Nat × List Nat) → IdxArg

/-- The dynamic type of the returned eigenvalues: a single array or a list. -/
inductive EvRes where
  | one : Vec → EvRes
  | many : List Vec → EvRes
deriving DecidableEq

/-- The dynamic type of the returned eigentensors (each eigentensor observed as
its core list): a single tensor or a list. -/
inductive TTRes where
  | one : List Core4 → TTRes
  | many : List (List Core4) → TTRes
deriving DecidableEq

/-- Whether an eigenvalue result is a list. -/
def EvRes.isList : EvRes → Bool
  | .one _ => false
  | .many _ => true

/-- Whether an eigentensor result is a list. -/
def TTRes.isList : TTRes → Bool
  | .one _ => false
  | .many _ => true

/-- Shallow embedding of `amuset_hosvd` (source lines 43–86) downstream of the
external Ψ construction and orthonormalization: list/scalar dispatch on
`x_indices` (lines 57–60), the per-pair loop, and the singleton unwrap
`if len(x_indices) == 1` (lines 81–84). -/
def amuset_hosvd (svd : SvdOracle) (eig : EigOracle) (psiOrtho : List Core4)
    (arg : IdxArg) : EvRes × TTRes :=
  let pairs := match arg with
    | .arr x y => [(x, y)]
    | .lst ps => ps
  let out := amusetBatch svd eig psiOrtho pairs
  if pairs.length = 1 then (.one (out.1.getD 0 []), .one (out.2.getD 0 []))
  else (.many out.1, .many out.2)

/-- Shallow embedding of `amuset_hocur` (source lines 126–168): the source
duplicates the post-construction pipeline of `amuset_hosvd` verbatim; the HOCUR
construction and the default-threshold orthonormalization are external and
enter through `psiOrtho`. -/
def amuset_hocur (svd : SvdOracle) (eig : EigOracle) (psiOrtho : List Core4)
    (arg : IdxArg) : EvRes × TTRes :=
  let pairs := match arg with
    | .arr x y => [(x, y)]
    | .lst ps => ps
  let out := amusetBatch svd eig psiOrtho pairs
  if pairs.length = 1 then (.one (out.1.getD 0 []), .one (out.2.getD 0 []))
  else (.many out.1, .many out.2)

/-- Spec-side retained rank: the length of the longest *prefix* of singular
values whose ratio to the largest strictly exceeds the threshold (§4.3 step 3:
"truncation takes a prefix"). -/
def specRank (s : Vec) (t : ℚ) : Nat :=
  (s.takeWhile (fun x => decide (t < x / s.getD 0 0))).length

/-- Spec-side truncated left factor: the first `specRank` columns of `U`. -/
def truncU (u : Mat) (s : Vec) (t : ℚ) : Mat := u.map (fun row => row.take (specRank s t))

/-- Spec-side truncated singular values: the first `specRank` entries of `s`. -/
def truncS (s : Vec) (t : ℚ) : Vec := s.take (specRank s t)

/-- Spec-side truncated right factor: the first `specRank` rows of `V`. -/
def truncV (v : Mat) (s : Vec) (t : ℚ) : Mat := v.take (specRank s t)

/-- Spec-side `diag(1 / s)`: the diagonal matrix of inverse singular values. -/
def invDiag (s : Vec) : Mat :=
  (List.range s.length).map (fun i =>
    (List.range s.length).map (fun j => if i = j then (s.getD i 0)⁻¹ else 0))

/-- Spec-side reconstructed last core: entry `(a, b)` is
`∑ k, U[a][k] * (1 / s[k]) * W[k][b]`, wrapped in the two trailing singleton
axes of the 4-index TT-core layout. -/
def specNewCore (u : Mat) (s : Vec) (w : Mat) : Core4 :=
  (List.range u.length).map (fun a =>
    (List.range (numCols w)).map (fun b =>
      [[∑ k in Finset.range s.length, getEntry u a k * (s.getD k 0)⁻¹ * getEntry w k b]]))

/-!  Concrete instances used as counterexamples, failing inputs and witnesses.
The SVD oracles below return the exact SVD factors of the matrices they are
applied to in the corresponding theorems, and the eigen-oracles return exact
eigenpairs of their argument matrices. -/

/-- A first core of Ψ (its content is irrelevant to the claims). -/
def c0Ex : Core4 := core4OfMat [[1]]

/-- Last core of an orthonormalized Ψ with bond dimension 2 over 4 snapshot
columns `(1,0), (0,1), (2,0), (0,3)`. -/
def lastCoreEx : Core4 := core4OfMat [[1, 0, 2, 0], [0, 1, 0, 3]]

/-- Orthonormalized Ψ core list for the 2 × 4 example. -/
def psiEx : List Core4 := [c0Ex, lastCoreEx]

/-- SVD oracle for the 2 × 4 example: exact SVDs of the two x-slices that occur
(`[[1,0],[0,1]] = I·diag(1,1)·I` and `[[2,0],[0,3]] = P·diag(3,2)·P` with the
permutation `P = [[0,1],[1,0]]`). -/
def svdEx : SvdOracle := fun m =>
  if m = [[2, 0], [0, 3]] then ([[0, 1], [1, 0]], [3, 2], [[0, 1], [1, 0]])
  else ([[1, 0], [0, 1]], [1, 1], [[1, 0], [0, 1]])

/-- Eigen-oracle for the 2 × 4 example: exact eigenpairs of the two reduced
matrices that occur (`I` and `diag(1/3, 1/2)`, both with eigenvector matrix
`I`). -/
def eigEx : EigOracle := fun m =>
  if m = [[(1 : ℚ)/3, 0], [0, 1/2]] then
    ([((1 : ℚ)/3, 0), (1/2, 0)], [[(1, 0), (0, 0)], [(0, 0), (1, 0)]])
  else
    ([((1 : ℚ), 0), (1, 0)], [[(1, 0), (0, 0)], [(0, 0), (1, 0)]])

/-- Last core of an orthonormalized Ψ with bond dimension 3 over 6 snapshot
columns: the first three columns are `I₃`, the last three are the transpose of
`M = [[13/10,0,0],[0,1,-1/2],[0,1/2,1]]`, whose spectrum is
`13/10, 1 ± i/2`. -/
def lastCoreCplxEx : Core4 :=
  core4OfMat [[1, 0, 0, 13/10, 0, 0], [0, 1, 0, 0, 1, 1/2], [0, 0, 1, 0, -1/2, 1]]

/-- Orthonormalized Ψ core list for the 3 × 6 example. -/
def psiCplxEx : List Core4 := [c0Ex, lastCoreCplxEx]

/-- SVD oracle for the 3 × 6 example: the only x-slice that occurs is `I₃`,
whose exact SVD is `I₃·diag(1,1,1)·I₃`. -/
def svdCplxEx : SvdOracle := fun _ =>
  ([[1, 0, 0], [0, 1, 0], [0, 0, 1]], [1, 1, 1], [[1, 0, 0], [0, 1, 0], [0, 0, 1]])

/-- Eigen-oracle for the 3 × 6 example: the only reduced matrix that occurs is
`M` itself, with exact eigenpairs `(13/10, e₁)`, `(1 + i/2, (0, 1, -i))`,
`(1 - i/2, (0, 1, i))`. -/
def eigCplxEx : EigOracle := fun _ =>
  ([((13 : ℚ)/10, 0), (1, 1/2), (1, -1/2)],
   [[(1, 0), (0, 0), (0, 0)], [(0, 0), (1, 0), (1, 0)], [(0, 0), (0, -1), (0, 1)]])

/-- SVD oracle returning the exact SVD of the 2 × 2 zero matrix (degenerate
x-slice: largest singular value 0). -/
def svdZeroEx : SvdOracle := fun _ => ([[1, 0], [0, 1]], [0, 0], [[1, 0], [0, 1]])

/-- Last core that is identically zero (degenerate x-slice). -/
def lastCoreZeroEx : Core4 := core4OfMat [[0, 0], [0, 0]]

/-- SVD oracle returning the exact SVD of `I₂`. -/
def svdIdEx : SvdOracle := fun _ => ([[1, 0], [0, 1]], [1, 1], [[1, 0], [0, 1]])

/-- Last core equal to `I₂` (reshaped), used with a threshold ≥ 1 so that the
relative-ratio filter retains nothing. -/
def lastCoreIdEx : Core4 := core4OfMat [[1, 0], [0, 1]]

/-! ### General helper lemmas on lists -/

/-- Reading the first `r` positions of a list through `getD` is `take`. -/
theorem range_map_getD {α : Type} (l : List α) (d : α) (r : Nat) (h : r ≤ l.length) :
    (List.range r).map (fun i => l.getD i d) = l.take r := by
  apply List.ext_getElem
  · simp [Nat.min_eq_left h]
  · intro i h1 h2
    simp only [List.getElem_map, List.getElem_range, List.getElem_take]
    have hi : i < l.length := lt_of_lt_of_le (by simpa using h1) h
    exact List.getD_eq_getElem l d hi

/-- Every position strictly inside the `takeWhile` prefix satisfies the
predicate. -/
theorem takeWhile_getD_true {α : Type} (p : α → Bool) (l : List α) (d : α) :
    ∀ i, i < (l.takeWhile p).length → p (l.getD i d) = true := by
  induction l with
  | nil => intro i h; simp [List.takeWhile] at h
  | cons a t ih =>
    intro i h
    cases hp : p a with
    | false => rw [List.takeWhile_cons_of_neg (by simp [hp])] at h; simp at h
    | true =>
      rw [List.takeWhile_cons_of_pos hp] at h
      cases i with
      | zero => simpa using hp
      | succ n =>
        rw [List.getD_cons_succ]
        exact ih n (by simpa using h)

/-- The predicate fails at the first position after the `takeWhile` prefix. -/
theorem takeWhile_getD_false {α : Type} (p : α → Bool) (l : List α) (d : α)
    (h : (l.takeWhile p).length < l.length) :
    p (l.getD (l.takeWhile p).length d) = false := by
  induction l with
  | nil => simp at h
  | cons a t ih =>
    cases hp : p a with
    | false =>
      rw [List.takeWhile_cons_of_neg (by simp [hp])]
      simpa using hp
    | true =>
      rw [List.takeWhile_cons_of_pos hp] at h ⊢
      rw [List.length_cons, List.getD_cons_succ]
      exact ih (by simpa using h)

/-- Filtering `range n` by `· < r` yields `range r` when `r ≤ n`. -/
theorem filter_range_lt (n r : Nat) (h : r ≤ n) :
    (List.range n).filter (fun i => decide (i < r)) = List.range r := by
  induction n with
  | zero =>
    have : r = 0 := Nat.le_zero.mp h
    subst this; rfl
  | succ m ih =>
    rcases Nat.lt_or_ge m r with h1 | h1
    · have hr : r = m + 1 := by omega
      subst hr
      exact List.filter_eq_self.mpr (fun a ha => by simpa using List.mem_range.mp ha)
    · rw [List.range_succ, List.filter_append, ih h1]
      have hmr : ¬ (m < r) := by omega
      simp [List.filter_cons, hmr]

/-- A pointwise stronger filter retains at most as many elements. -/
theorem filter_length_mono {α : Type} (l : List α) (p q : α → Bool)
    (h : ∀ a, p a = true → q a = true) :
    (l.filter p).length ≤ (l.filter q).length := by
  induction l with
  | nil => simp
  | cons a t ih =>
    rw [List.filter_cons, List.filter_cons]
    cases hp : p a with
    | true =>
      rw [h a hp]
      simpa using ih
    | false =>
      cases hq : q a with
      | true => simpa using Nat.le_succ_of_le ih
      | false => simpa using ih

/-- Setting the last element of a list does not change its `dropLast`. -/
theorem dropLast_set_last {α : Type} (l : List α) (x : α) :
    (l.set (l.length - 1) x).dropLast = l.dropLast := by
  induction l with
  | nil => rfl
  | cons a t ih =>
    cases t with
    | nil => rfl
    | cons b u =>
      have h1 : (a :: b :: u).length - 1 = u.length + 1 := by simp
      rw [h1]
      show (a :: (b :: u).set u.length x).dropLast = (a :: b :: u).dropLast
      rw [List.dropLast_eq_take, List.dropLast_eq_take]
      have hlen : ((b :: u).set u.length x).length = u.length + 1 := by simp
      simp only [List.length_cons, hlen, Nat.add_sub_cancel, List.take_succ_cons]
      have h2 := ih
      rw [List.dropLast_eq_take, List.dropLast_eq_take] at h2
      simp only [hlen, List.length_cons, Nat.add_sub_cancel] at h2
      rw [h2]

/-- Squares dominate absolute values in `ℚ`. -/
theorem abs_le_abs_of_sq (a b : ℚ) (h : a ^ 2 ≤ b ^ 2) : |a| ≤ |b| := by
  have ha := abs_nonneg a
  have hb := abs_nonneg b
  rw [← sq_abs a, ← sq_abs b] at h
  exact (pow_le_pow_iff_left₀ ha hb two_ne_zero).mp h

/-! ### Helper lemmas about the truncation filter -/

/-- The spec-side prefix rank never exceeds the number of singular values. -/
theorem specRank_le (s : Vec) (t : ℚ) : specRank s t ≤ s.length :=
  (List.takeWhile_sublist _).length_le

/-- Inside the spec-side prefix the ratio test succeeds. -/
theorem ratio_true_of_lt (s : Vec) (t : ℚ) (i : Nat) (h : i < specRank s t) :
    t < s.getD i 0 / s.getD 0 0 := by
  have h2 := takeWhile_getD_true (fun x => decide (t < x / s.getD 0 0)) s 0 i h
  simp only [decide_eq_true_eq] at h2
  exact h2

/-- Past the spec-side prefix the ratio test fails, for nonincreasing
nonnegative-leading singular values and a nonnegative threshold. -/
theorem ratio_false_of_ge (s : Vec) (t : ℚ)
    (hsort : s.Pairwise (fun a b => b ≤ a)) (h0 : 0 ≤ s.getD 0 0) (ht : 0 ≤ t)
    (i : Nat) (hge : specRank s t ≤ i) (hlt : i < s.length) :
    ¬ t < s.getD i 0 / s.getD 0 0 := by
  intro hcontra
  have hr : specRank s t < s.length := lt_of_le_of_lt hge hlt
  have hfail : ¬ t < s.getD (specRank s t) 0 / s.getD 0 0 := by
    have h2 := takeWhile_getD_false (fun x => decide (t < x / s.getD 0 0)) s 0 hr
    simp only [decide_eq_false_iff_not] at h2
    exact h2
  have hmono : s.getD i 0 ≤ s.getD (specRank s t) 0 := by
    rcases eq_or_lt_of_le hge with heq | hlt2
    · rw [heq]
    · have hg := List.pairwise_iff_get.mp hsort ⟨specRank s t, hr⟩ ⟨i, hlt⟩ hlt2
      rw [List.getD_eq_getElem s 0 hlt, List.getD_eq_getElem s 0 hr]
      simpa using hg
  rcases lt_or_eq_of_le h0 with h0' | h0'
  · have hdiv : s.getD i 0 / s.getD 0 0 ≤ s.getD (specRank s t) 0 / s.getD 0 0 :=
      (div_le_div_iff_of_pos_right h0').mpr hmono
    exact hfail (lt_of_lt_of_le hcontra hdiv)
  · rw [← h0', div_zero] at hcontra
    exact absurd hcontra (not_lt.mpr ht)

/-- The index set retained by `np.where(s / s[0] > threshold)` is exactly the
initial segment of length `specRank`. -/
theorem whereGt_eq_range (s : Vec) (t : ℚ)
    (hsort : s.Pairwise (fun a b => b ≤ a)) (h0 : 0 ≤ s.getD 0 0) (ht : 0 ≤ t) :
    whereGt s t = List.range (specRank s t) := by
  unfold whereGt
  have hiff : ∀ i ∈ List.range s.length,
      decide (t < s.getD i 0 / s.getD 0 0) = decide (i < specRank s t) := by
    intro i hi
    have hi' : i < s.length := List.mem_range.mp hi
    by_cases hlt : i < specRank s t
    · rw [decide_eq_true (ratio_true_of_lt s t i hlt), decide_eq_true hlt]
    · rw [decide_eq_false (ratio_false_of_ge s t hsort h0 ht i (Nat.le_of_not_lt hlt) hi'),
        decide_eq_false hlt]
  rw [List.filter_congr hiff, filter_range_lt _ _ (specRank_le s t)]

/-! ### Helper lemmas about the matrix operations -/

/-- The `getD`-with-default-0 view of an elementwise reciprocal (`0⁻¹ = 0` makes
the out-of-range case agree as well). -/
theorem getD_map_inv (s : Vec) (i : Nat) :
    (s.map (fun x => x⁻¹)).getD i 0 = (s.getD i 0)⁻¹ := by
  rcases Nat.lt_or_ge i s.length with h | h
  · rw [List.getD_eq_getElem _ _ (by simpa using h), List.getD_eq_getElem _ _ h,
      List.getElem_map]
  · rw [List.getD_eq_default _ _ (by simpa using h), List.getD_eq_default _ _ h, inv_zero]

/-- `np.diag(np.reciprocal(s))` is the spec-side matrix `diag(1 / s)`. -/
theorem diagM_recipV (s : Vec) : diagM (recipV s) = invDiag s := by
  unfold diagM invDiag recipV
  rw [List.length_map]
  apply List.ext_getElem (by simp)
  intro i h1 h2
  simp only [List.getElem_map, List.getElem_range]
  apply List.ext_getElem (by simp)
  intro j h3 h4
  simp only [List.getElem_map, List.getElem_range]
  rw [getD_map_inv]

/-- A diagonal matrix is square. -/
theorem numCols_diagM (s : Vec) : numCols (diagM s) = s.length := by
  cases s with
  | nil => rfl
  | cons a t => simp [diagM, numCols, List.range_succ_eq_map]

/-- The diagonal matrix of reciprocals has one column per singular value. -/
theorem numCols_diag_recipV (s : Vec) : numCols (diagM (recipV s)) = s.length := by
  rw [numCols_diagM]
  simp [recipV]

/-- A dot product as a finite sum over positions. -/
theorem dotL_eq_sum (a b : Vec) :
    dotL a b = ∑ i in Finset.range (min a.length b.length), a.getD i 0 * b.getD i 0 := by
  induction a generalizing b with
  | nil => simp [dotL]
  | cons x xs ih =>
    cases b with
    | nil => simp [dotL]
    | cons y ys =>
      simp only [dotL, List.zipWith_cons_cons, List.sum_cons, List.length_cons,
        Nat.succ_min_succ, Finset.sum_range_succ', List.getD_cons_succ, List.getD_cons_zero]
      rw [← ih ys]
      rw [add_comm]
      rfl

/-- Dotting a row with column `k` of `diag(1 / s)` picks out the `k`-th entry
rescaled by `(s k)⁻¹`. -/
theorem dotL_col_diag (r0 : Vec) (s : Vec) (k : Nat)
    (hr : r0.length = s.length) (hk : k < s.length) :
    dotL r0 (col (diagM (recipV s)) k) = r0.getD k 0 * (s.getD k 0)⁻¹ := by
  have hlen : (col (diagM (recipV s)) k).length = s.length := by
    simp [col, diagM, recipV]
  have hentry : ∀ i, i < s.length →
      (col (diagM (recipV s)) k).getD i 0 = if i = k then (s.getD i 0)⁻¹ else 0 := by
    intro i hi
    unfold col diagM recipV
    rw [List.getD_eq_getElem _ _ (by simpa [diagM, recipV] using hi)]
    simp only [List.getElem_map, List.getElem_range]
    rw [List.getD_eq_getElem _ _ (by simpa using hk)]
    simp only [List.getElem_map, List.getElem_range]
    by_cases hik : i = k
    · rw [if_pos hik, if_pos hik, getD_map_inv]
    · rw [if_neg hik, if_neg hik]
  rw [dotL_eq_sum, hr, hlen, Nat.min_self]
  rw [Finset.sum_congr rfl (fun i hi => by
    rw [hentry i (Finset.mem_range.mp hi)])]
  rw [Finset.sum_congr rfl (fun i _ => by
    rw [mul_ite, mul_zero] : ∀ i ∈ Finset.range s.length,
      r0.getD i 0 * (if i = k then (s.getD i 0)⁻¹ else 0)
        = if i = k then r0.getD i 0 * (s.getD i 0)⁻¹ else 0)]
  rw [Finset.sum_ite_eq' (Finset.range s.length) k (fun i => r0.getD i 0 * (s.getD i 0)⁻¹)]
  rw [if_pos (Finset.mem_range.mpr hk)]

/-- Reading a mapped list through `getD` at a valid position applies the
function to the underlying `getD` value. -/
theorem getD_map_of_lt {α β : Type} (f : α → β) (l : List α) (a : Nat) (d : α) (d2 : β)
    (h : a < l.length) : (l.map f).getD a d2 = f (l.getD a d) := by
  rw [List.getD_eq_getElem _ _ (by simpa using h), List.getD_eq_getElem _ _ h,
    List.getElem_map]

/-- The reconstruction product `U · diag(1/s) · W`, reshaped to 4-index layout,
coincides with the entrywise spec formula. -/
theorem core4_matMul_diag (u : Mat) (s : Vec) (w : Mat)
    (hu : ∀ row ∈ u, row.length = s.length) (hw : w.length = s.length) :
    core4OfMat (matMul (matMul u (diagM (recipV s))) w) = specNewCore u s w := by
  have hscalar : ∀ a, a < u.length → ∀ b,
      dotL ((matMul u (diagM (recipV s))).getD a []) (col w b)
        = ∑ k in Finset.range s.length, getEntry u a k * (s.getD k 0)⁻¹ * getEntry w k b := by
    intro a ha b
    have hA : (matMul u (diagM (recipV s))).getD a []
        = (List.range (numCols (diagM (recipV s)))).map
            (fun k => dotL (u.getD a []) (col (diagM (recipV s)) k)) := by
      unfold matMul
      exact getD_map_of_lt _ u a [] [] ha
    rw [hA, numCols_diag_recipV]
    rw [dotL_eq_sum]
    have hl1 : ((List.range s.length).map
        (fun k => dotL (u.getD a []) (col (diagM (recipV s)) k))).length = s.length := by simp
    have hl2 : (col w b).length = s.length := by simp [col, hw]
    rw [hl1, hl2, Nat.min_self]
    apply Finset.sum_congr rfl
    intro k hk
    have hk' : k < s.length := Finset.mem_range.mp hk
    have he1 : ((List.range s.length).map
        (fun k => dotL (u.getD a []) (col (diagM (recipV s)) k))).getD k 0
        = dotL (u.getD a []) (col (diagM (recipV s)) k) := by
      rw [List.getD_eq_getElem _ _ (by simpa using hk')]
      simp
    rw [he1]
    have hrlen : (u.getD a []).length = s.length := by
      apply hu
      rw [List.getD_eq_getElem u [] ha]
      exact List.getElem_mem ha
    rw [dotL_col_diag (u.getD a []) s k hrlen hk']
    have he2 : (col w b).getD k 0 = getEntry w k b := by
      unfold col getEntry
      rw [List.getD_eq_getElem _ _ (by simpa [hw] using hk')]
      simp only [List.getElem_map]
      rw [List.getD_eq_getElem w [] (by rw [hw]; exact hk')]
    rw [he2]
    have he3 : (u.getD a []).getD k 0 = getEntry u a k := rfl
    rw [he3, mul_assoc]
  have hrow : ∀ a, a < u.length →
      (matMul (matMul u (diagM (recipV s))) w).getD a []
        = (List.range (numCols w)).map
            (fun b => dotL ((matMul u (diagM (recipV s))).getD a []) (col w b)) := by
    intro a ha
    have hlenA : a < (matMul u (diagM (recipV s))).length := by
      simpa [matMul] using ha
    unfold matMul
    exact getD_map_of_lt _ _ a [] [] hlenA
  apply List.ext_getElem
  · simp [core4OfMat, specNewCore, matMul]
  · intro a h1 h2
    have ha : a < u.length := by simpa [core4OfMat, matMul] using h1
    unfold core4OfMat specNewCore
    simp only [List.getElem_map, List.getElem_range]
    rw [← List.getD_eq_getElem (matMul (matMul u (diagM (recipV s))) w) []
      (show a < (matMul (matMul u (diagM (recipV s))) w).length by simpa [matMul] using ha)]
    rw [hrow a ha, List.map_map]
    apply List.ext_getElem
    · simp
    · intro b h3 h4
      simp only [List.getElem_map, List.getElem_range, Function.comp]
      rw [hscalar a ha b]

/-! ### Helper lemmas about the driver loop and reordering -/

/-- Column selection at an initial segment is a rowwise `take`. -/
theorem selCols_range (u : Mat) (r : Nat) (h : ∀ row ∈ u, r ≤ row.length) :
    selCols u (List.range r) = u.map (fun row => row.take r) := by
  unfold selCols
  exact List.map_congr_left (fun row hrow => range_map_getD row 0 r (h row hrow))

/-- Row selection at an initial segment is a `take`. -/
theorem selRows_range (v : Mat) (r : Nat) (h : r ≤ v.length) :
    selRows v (List.range r) = v.take r := by
  unfold selRows
  exact range_map_getD v [] r h

/-- Every row of the truncated `U` returned by `_reduced_matrix` has exactly one
entry per retained singular value. -/
theorem reducedMatrix_u_rowLength (svd : SvdOracle) (lastCore : Core4)
    (xI yI : List Nat) (t : ℚ) :
    ∀ row ∈ (reducedMatrix svd lastCore xI yI t).u,
      row.length = (reducedMatrix svd lastCore xI yI t).s.length := by
  simp only [reducedMatrix, selCols]
  intro row hrow
  simp only [List.mem_map] at hrow
  obtain ⟨r0, _, hmap⟩ := hrow
  rw [← hmap]
  simp

/-- Members of the argsort index list are valid indices into the eigenvalue
array. -/
theorem mem_argsortDist1 (w : List Qc) (k : Nat) (hk : k ∈ argsortDist1 w) : k < w.length := by
  have hperm : List.Perm (argsortDist1 w) (List.range w.length) := List.perm_insertionSort _ _
  exact List.mem_range.mp (hperm.mem_iff.mp hk)

/-- When every eigenvalue is real, the reordered real-coerced eigenvalues have
nondecreasing distance to 1. -/
theorem sorted_realsReordered (w : List Qc) (hw : ∀ z ∈ w, z.2 = 0) :
    List.Sorted (· ≤ ·) ((realsReordered w).map (fun x => |x - 1|)) := by
  unfold realsReordered
  rw [List.map_map]
  rw [List.Sorted, List.pairwise_map]
  have hsorted : List.Pairwise
      (fun i j => dist1Sq (w.getD i (0, 0)) ≤ dist1Sq (w.getD j (0, 0))) (argsortDist1 w) := by
    unfold argsortDist1
    haveI : IsTotal Nat (fun i j => dist1Sq (w.getD i (0, 0)) ≤ dist1Sq (w.getD j (0, 0))) :=
      ⟨fun a b => le_total _ _⟩
    haveI : IsTrans Nat (fun i j => dist1Sq (w.getD i (0, 0)) ≤ dist1Sq (w.getD j (0, 0))) :=
      ⟨fun a b c h1 h2 => le_trans h1 h2⟩
    exact List.sorted_insertionSort _ _
  refine hsorted.imp_of_mem ?_
  intro i j hi hj hij
  have hi' : i < w.length := mem_argsortDist1 w i hi
  have hj' : j < w.length := mem_argsortDist1 w j hj
  have him : (w.getD i (0, 0)).2 = 0 := by
    rw [List.getD_eq_getElem _ _ hi']
    exact hw _ (List.getElem_mem hi')
  have hjm : (w.getD j (0, 0)).2 = 0 := by
    rw [List.getD_eq_getElem _ _ hj']
    exact hw _ (List.getElem_mem hj')
  simp only [Function.comp]
  apply abs_le_abs_of_sq
  have hdi : dist1Sq (w.getD i (0, 0)) = ((w.getD i (0, 0)).1 - 1) ^ 2 := by
    unfold dist1Sq
    rw [him]
    ring
  have hdj : dist1Sq (w.getD j (0, 0)) = ((w.getD j (0, 0)).1 - 1) ^ 2 := by
    unfold dist1Sq
    rw [hjm]
    ring
  rw [hdi, hdj] at hij
  exact hij

/-- The eigenvalue arrays accumulated by the loop are a pure map over the pairs,
computed from the captured last core only: the threaded (mutated) core-list
state never feeds back into them. -/
theorem amusetLoop_evs (svd : SvdOracle) (eig : EigOracle) (lc : Core4)
    (pairs : List (List Nat × List Nat)) :
    ∀ cores, (amusetLoop svd eig lc pairs cores).1
      = pairs.map (fun p => (amusetIter svd eig lc p.1 p.2).eigenvalues) := by
  induction pairs with
  | nil => intro cores; rfl
  | cons p rest ih =>
    intro cores
    simp only [amusetLoop, List.map_cons]
    rw [ih]

/-- The loop only ever overwrites the last core, so all earlier cores of the
shared object survive unchanged. -/
theorem amusetLoop_dropLast (svd : SvdOracle) (eig : EigOracle) (lc : Core4)
    (pairs : List (List Nat × List Nat)) :
    ∀ cores, (amusetLoop svd eig lc pairs cores).2.dropLast = cores.dropLast := by
  induction pairs with
  | nil => intro cores; rfl
  | cons p rest ih =>
    intro cores
    simp only [amusetLoop]
    rw [ih]
    exact dropLast_set_last cores _

/-! ### Claim theorems -/

/-- Claim C1 (code bug): the claim states that in a batch call with two index
pairs every per-pair eigentensor (its last core included) equals the result of
an individual driver call on that pair, with no eigentensor observing a later
pair's core.  The source instead binds `eigentensors_tmp = psi` without a copy,
so every appended eigentensor aliases the one shared TT object: on the concrete
two-pair input below, the batch call returns the *second* pair's reconstructed
last core (`[[1/2,0],[0,1/3]]`) for *both* pairs, while the individual call on
the first pair returns `I₂`, and the two cores differ.  The same holds for
`amuset_hocur`, which duplicates the code. -/
theorem amuset_batch_aliases_last_core :
    (amuset_hosvd svdEx eigEx psiEx (.lst [([0, 1], [0, 1]), ([2, 3], [0, 1])])).2
      = .many [[c0Ex, core4OfMat [[1/2, 0], [0, 1/3]]], [c0Ex, core4OfMat [[1/2, 0], [0, 1/3]]]]
    ∧ (amuset_hosvd svdEx eigEx psiEx (.arr [0, 1] [0, 1])).2
      = .one [c0Ex, core4OfMat [[1, 0], [0, 1]]]
    ∧ (amuset_hocur svdEx eigEx psiEx (.lst [([0, 1], [0, 1]), ([2, 3], [0, 1])])).2
      = .many [[c0Ex, core4OfMat [[1/2, 0], [0, 1/3]]], [c0Ex, core4OfMat [[1/2, 0], [0, 1/3]]]]
    ∧ core4OfMat [[(1 : ℚ)/2, 0], [0, 1/3]] ≠ core4OfMat [[1, 0], [0, 1]] := by
  refine ⟨?_, ?_, ?_, ?_⟩ <;> with_unfolding_all decide

/-- Claim C2 (counterexample): the claim asserts that passing `x_indices` as a
list containing exactly one pair yields length-1 *lists*; on a concrete
one-pair list both drivers instead return unwrapped single results (the
unwrap tests `len(x_indices) == 1` after normalization, regardless of the
calling convention). -/
theorem singleton_list_result_unwrapped :
    (amuset_hosvd svdEx eigEx psiEx (.lst [([0, 1], [0, 1])])).1.isList = false
    ∧ (amuset_hosvd svdEx eigEx psiEx (.lst [([0, 1], [0, 1])])).2.isList = false
    ∧ (amuset_hocur svdEx eigEx psiEx (.lst [([0, 1], [0, 1])])).1.isList = false := by
  refine ⟨?_, ?_, ?_⟩ <;> with_unfolding_all decide

/-- Claim C2 (amended): a bare index-array argument returns a single eigenvalue
array and a single eigentensor; a list argument returns lists exactly when it
holds at least two pairs; a list holding exactly one pair is unwrapped and
agrees with the bare-array call.  Holds for both drivers. -/
theorem calling_convention_dispatch (svd : SvdOracle) (eig : EigOracle) (psiOrtho : List Core4)
    (x y : List Nat) (ps : List (List Nat × List Nat)) (hps : 2 ≤ ps.length) :
    (amuset_hosvd svd eig psiOrtho (.arr x y)).1.isList = false
    ∧ (amuset_hosvd svd eig psiOrtho (.arr x y)).2.isList = false
    ∧ amuset_hosvd svd eig psiOrtho (.lst [(x, y)]) = amuset_hosvd svd eig psiOrtho (.arr x y)
    ∧ (amuset_hosvd svd eig psiOrtho (.lst ps)).1.isList = true
    ∧ (amuset_hosvd svd eig psiOrtho (.lst ps)).2.isList = true
    ∧ (amuset_hocur svd eig psiOrtho (.arr x y)).1.isList = false
    ∧ amuset_hocur svd eig psiOrtho (.lst [(x, y)]) = amuset_hocur svd eig psiOrtho (.arr x y)
    ∧ (amuset_hocur svd eig psiOrtho (.lst ps)).1.isList = true := by
  have hne : ¬ (ps.length = 1) := by omega
  refine ⟨rfl, rfl, rfl, ?_, ?_, rfl, rfl, ?_⟩ <;>
  · simp only [amuset_hosvd, amuset_hocur]
    rw [if_neg hne]
    rfl

/-- Witness for `calling_convention_dispatch` at a concrete two-pair batch. -/
theorem calling_convention_dispatch_witness :
    2 ≤ ([(([0, 1] : List Nat), ([0, 1] : List Nat)), ([2, 3], [0, 1])]).length
    ∧ ((amuset_hosvd svdEx eigEx psiEx (.arr [0, 1] [0, 1])).1.isList = false
    ∧ (amuset_hosvd svdEx eigEx psiEx (.arr [0, 1] [0, 1])).2.isList = false
    ∧ amuset_hosvd svdEx eigEx psiEx (.lst [([0, 1], [0, 1])])
        = amuset_hosvd svdEx eigEx psiEx (.arr [0, 1] [0, 1])
    ∧ (amuset_hosvd svdEx eigEx psiEx
        (.lst [([0, 1], [0, 1]), ([2, 3], [0, 1])])).1.isList = true
    ∧ (amuset_hosvd svdEx eigEx psiEx
        (.lst [([0, 1], [0, 1]), ([2, 3], [0, 1])])).2.isList = true
    ∧ (amuset_hocur svdEx eigEx psiEx (.arr [0, 1] [0, 1])).1.isList = false
    ∧ amuset_hocur svdEx eigEx psiEx (.lst [([0, 1], [0, 1])])
        = amuset_hocur svdEx eigEx psiEx (.arr [0, 1] [0, 1])
    ∧ (amuset_hocur svdEx eigEx psiEx
        (.lst [([0, 1], [0, 1]), ([2, 3], [0, 1])])).1.isList = true) :=
  ⟨by decide,
   calling_convention_dispatch svdEx eigEx psiEx [0, 1] [0, 1]
     [([0, 1], [0, 1]), ([2, 3], [0, 1])] (by decide)⟩

/-- Claim C3 (code bug): the claim states that on a degenerate x-slice (largest
singular value 0) `_reduced_matrix` fails explicitly.  On the concrete all-zero
x-slice below (exact SVD factors `I₂, [0, 0], I₂`), the ratio test retains no
index — in NumPy `0.0 / 0.0` is NaN and `NaN > threshold` is false, matching
the embedding — and the function silently returns an empty 0 × 0 reduced
matrix, a column-less `U` and empty `s`, `v`, raising no error. -/
theorem degenerate_slice_silent_empty :
    reducedMatrix svdZeroEx lastCoreZeroEx [0, 1] [0, 1] (1 / 1000)
      = ⟨[], [[], []], [], []⟩ := by
  with_unfolding_all decide

/-- Claim C4 (code bug): the claim states that when the relative-threshold
filter retains zero singular values the computation fails explicitly.  With
threshold 1 and x-slice `I₂` (singular values `[1, 1]`, all ratios equal to 1,
none strictly above the threshold) the filter retains nothing and the function
silently returns an empty reduced matrix and empty spectrum basis instead of
raising. -/
theorem empty_retention_silent_empty :
    reducedMatrix svdIdEx lastCoreIdEx [0, 1] [0, 1] 1 = ⟨[], [[], []], [], []⟩ := by
  with_unfolding_all decide

/-- Claim C5 (counterexample): the claim asserts `|eigenvalues[i] - 1|` is
nondecreasing for the *returned real-coerced* values.  On a reduced matrix with
spectrum `13/10, 1 ± i/2` the sort happens on the complex moduli
`(3/10, 1/2, 1/2)`, but after discarding imaginary parts the returned values
are `[13/10, 1, 1]` with distances `(3/10, 0, 0)` — strictly decreasing. -/
theorem real_coerced_order_violated :
    (amuset_hosvd svdCplxEx eigCplxEx psiCplxEx (.arr [0, 1, 2] [3, 4, 5])).1
      = .one [13/10, 1, 1]
    ∧ ¬ List.Sorted (· ≤ ·) ([(13 : ℚ)/10, 1, 1].map (fun x => |x - 1|)) := by
  refine ⟨?_, ?_⟩ <;> with_unfolding_all decide

/-- Claim C5 (amended): the driver sorts eigenpairs by the complex modulus
`|λ - 1|` *before* the real-part coercion; therefore, whenever the eigensolver
returns an all-real spectrum for a pair's reduced matrix, the returned
eigenvalue array does have nondecreasing `|eigenvalues[i] - 1|`.  (With
genuinely complex eigenvalues the property can fail, as the counterexample
shows.) -/
theorem sorted_dist_of_real_spectrum (svd : SvdOracle) (eig : EigOracle)
    (psiOrtho : List Core4) (pairs : List (List Nat × List Nat))
    (hreal : ∀ p ∈ pairs,
      ∀ z ∈ (eig (reducedMatrix svd (psiOrtho.getD (psiOrtho.length - 1) [])
          p.1 p.2 (1 / 1000)).matrix).1, z.2 = 0) :
    ∀ ev ∈ (amusetBatch svd eig psiOrtho pairs).1,
      List.Sorted (· ≤ ·) (ev.map (fun x => |x - 1|)) := by
  intro ev hev
  have hb : (amusetBatch svd eig psiOrtho pairs).1
      = pairs.map (fun p =>
          (amusetIter svd eig (psiOrtho.getD (psiOrtho.length - 1) []) p.1 p.2).eigenvalues) := by
    simp only [amusetBatch]
    exact amusetLoop_evs svd eig _ pairs psiOrtho
  rw [hb] at hev
  simp only [List.mem_map] at hev
  obtain ⟨p, hp, rfl⟩ := hev
  show List.Sorted (· ≤ ·)
    ((realsReordered ((eig (reducedMatrix svd (psiOrtho.getD (psiOrtho.length - 1) [])
        p.1 p.2 (1 / 1000)).matrix).1)).map (fun x => |x - 1|))
  exact sorted_realsReordered _ (hreal p hp)

/-- Witness for `sorted_dist_of_real_spectrum` at a concrete all-real
spectrum. -/
theorem sorted_dist_of_real_spectrum_witness :
    (∀ p ∈ [(([0, 1] : List Nat), ([0, 1] : List Nat))],
      ∀ z ∈ (eigEx (reducedMatrix svdEx (psiEx.getD (psiEx.length - 1) [])
          p.1 p.2 (1 / 1000)).matrix).1, z.2 = 0)
    ∧ ∀ ev ∈ (amusetBatch svdEx eigEx psiEx [([0, 1], [0, 1])]).1,
        List.Sorted (· ≤ ·) (ev.map (fun x => |x - 1|)) :=
  ⟨by with_unfolding_all decide,
   sorted_dist_of_real_spectrum svdEx eigEx psiEx [([0, 1], [0, 1])]
     (by with_unfolding_all decide)⟩

/-- Claim C6 (confirmed): whenever the SVD oracle returns factors `(u, s, v)`
for the x-slice with `s` nonincreasing and nonnegative-leading (the LAPACK
contract), `u` rows and `v` long enough to cover `s`, and the threshold is
nonnegative, `_reduced_matrix` returns exactly the spec-side prefix-truncated
factors together with the matrix `V · Yᵗ · U · diag(1 / s)` formed from them,
where `Y` is the y-slice. -/
theorem reduced_matrix_is_spec (svd : SvdOracle) (lastCore : Core4) (xI yI : List Nat) (t : ℚ)
    (u : Mat) (s : Vec) (v : Mat)
    (hsvd : svd (sliceAt lastCore xI) = (u, s, v))
    (hsort : s.Pairwise (fun a b => b ≤ a))
    (h0 : 0 ≤ s.getD 0 0) (ht : 0 ≤ t)
    (hu : ∀ row ∈ u, s.length ≤ row.length)
    (hv : s.length ≤ v.length) :
    reducedMatrix svd lastCore xI yI t
      = ⟨matMul (matMul (matMul (truncV v s t) (transpose (sliceAt lastCore yI)))
            (truncU u s t)) (invDiag (truncS s t)),
          truncU u s t, truncS s t, truncV v s t⟩ := by
  simp only [reducedMatrix, hsvd]
  rw [whereGt_eq_range s t hsort h0 ht]
  rw [selCols_range u (specRank s t) (fun row hrow => le_trans (specRank_le s t) (hu row hrow))]
  rw [range_map_getD s 0 (specRank s t) (specRank_le s t)]
  rw [selRows_range v (specRank s t) (le_trans (specRank_le s t) hv)]
  rw [diagM_recipV]
  rfl

/-- Witness for `reduced_matrix_is_spec` at the concrete x-slice
`[[2,0],[0,3]]` with exact SVD factors. -/
theorem reduced_matrix_is_spec_witness :
    svdEx (sliceAt lastCoreEx [2, 3]) = ([[0, 1], [1, 0]], [3, 2], [[0, 1], [1, 0]])
    ∧ reducedMatrix svdEx lastCoreEx [2, 3] [0, 1] (1 / 1000)
      = ⟨matMul (matMul (matMul (truncV [[0, 1], [1, 0]] [3, 2] (1 / 1000))
            (transpose (sliceAt lastCoreEx [0, 1])))
            (truncU [[0, 1], [1, 0]] [3, 2] (1 / 1000)))
          (invDiag (truncS [3, 2] (1 / 1000))),
          truncU [[0, 1], [1, 0]] [3, 2] (1 / 1000),
          truncS [3, 2] (1 / 1000),
          truncV [[0, 1], [1, 0]] [3, 2] (1 / 1000)⟩ :=
  ⟨by with_unfolding_all decide,
   reduced_matrix_is_spec svdEx lastCoreEx [2, 3] [0, 1] (1 / 1000)
     [[0, 1], [1, 0]] [3, 2] [[0, 1], [1, 0]]
     (by with_unfolding_all decide) (by with_unfolding_all decide)
     (by with_unfolding_all decide) (by with_unfolding_all decide)
     (by with_unfolding_all decide) (by with_unfolding_all decide)⟩

/-- Claim C7 (confirmed): the last core reconstructed in each loop iteration
equals, entry for entry, `U · diag(1 / s) · W` — with `(U, s)` the truncated
SVD factors returned by `_reduced_matrix` and `W` the real-coerced reordered
eigenvector matrix — reshaped to the 4-index TT-core layout with two trailing
singleton axes, provided the eigensolver returns one eigenvector row per
retained singular value; and every eigentensor produced by a batch call keeps
all cores of the orthonormalized Ψ except the last. -/
theorem eigentensor_core_reconstruction (svd : SvdOracle) (eig : EigOracle)
    (lastCore : Core4) (xI yI : List Nat) (psiOrtho : List Core4)
    (pairs : List (List Nat × List Nat))
    (hw : ((eig (reducedMatrix svd lastCore xI yI (1 / 1000)).matrix).2).length
        = (reducedMatrix svd lastCore xI yI (1 / 1000)).s.length) :
    (amusetIter svd eig lastCore xI yI).newcore
      = specNewCore (reducedMatrix svd lastCore xI yI (1 / 1000)).u
          (reducedMatrix svd lastCore xI yI (1 / 1000)).s
          (vecsReordered (eig (reducedMatrix svd lastCore xI yI (1 / 1000)).matrix).1
            (eig (reducedMatrix svd lastCore xI yI (1 / 1000)).matrix).2)
    ∧ ∀ cs ∈ (amusetBatch svd eig psiOrtho pairs).2, cs.dropLast = psiOrtho.dropLast := by
  constructor
  · exact core4_matMul_diag _ _ _
      (reducedMatrix_u_rowLength svd lastCore xI yI (1 / 1000))
      (by simpa [vecsReordered] using hw)
  · intro cs hcs
    simp only [amusetBatch, List.mem_map] at hcs
    obtain ⟨p, hp, hcs2⟩ := hcs
    rw [← hcs2]
    exact amusetLoop_dropLast svd eig _ pairs psiOrtho

/-- Witness for `eigentensor_core_reconstruction` at concrete 2 × 2 data. -/
theorem eigentensor_core_reconstruction_witness :
    ((eigEx (reducedMatrix svdEx lastCoreEx [0, 1] [0, 1] (1 / 1000)).matrix).2).length
      = (reducedMatrix svdEx lastCoreEx [0, 1] [0, 1] (1 / 1000)).s.length
    ∧ ((amusetIter svdEx eigEx lastCoreEx [0, 1] [0, 1]).newcore
      = specNewCore (reducedMatrix svdEx lastCoreEx [0, 1] [0, 1] (1 / 1000)).u
          (reducedMatrix svdEx lastCoreEx [0, 1] [0, 1] (1 / 1000)).s
          (vecsReordered (eigEx (reducedMatrix svdEx lastCoreEx [0, 1] [0, 1] (1 / 1000)).matrix).1
            (eigEx (reducedMatrix svdEx lastCoreEx [0, 1] [0, 1] (1 / 1000)).matrix).2)
    ∧ ∀ cs ∈ (amusetBatch svdEx eigEx psiEx [([0, 1], [0, 1])]).2,
        cs.dropLast = psiEx.dropLast) :=
  ⟨by with_unfolding_all decide,
   eigentensor_core_reconstruction svdEx eigEx lastCoreEx [0, 1] [0, 1] psiEx
     [([0, 1], [0, 1])] (by with_unfolding_all decide)⟩

/-- Claim C8 (confirmed): for singular values returned in descending order
(with nonnegative leading value) and a nonnegative threshold, the index set
retained by `_reduced_matrix`'s filter `np.where(s / s[0] > threshold)` is
exactly an initial segment: every index below the cut has ratio strictly above
the threshold and every index at or past the cut does not — never a scattered
subset. -/
theorem retained_indices_initial_segment (svd : SvdOracle) (lastCore : Core4) (xI : List Nat)
    (t : ℚ) (s : Vec) (_hs : (svd (sliceAt lastCore xI)).2.1 = s)
    (hsort : s.Pairwise (fun a b => b ≤ a)) (h0 : 0 ≤ s.getD 0 0) (ht : 0 ≤ t) :
    ∃ r, r ≤ s.length ∧ whereGt s t = List.range r
      ∧ (∀ i, i < r → t < s.getD i 0 / s.getD 0 0)
      ∧ (∀ i, r ≤ i → i < s.length → ¬ t < s.getD i 0 / s.getD 0 0) :=
  ⟨specRank s t, specRank_le s t, whereGt_eq_range s t hsort h0 ht,
    fun i hi => ratio_true_of_lt s t i hi,
    fun i h1 h2 => ratio_false_of_ge s t hsort h0 ht i h1 h2⟩

/-- Witness for `retained_indices_initial_segment` at singular values
`[3, 2]`. -/
theorem retained_indices_initial_segment_witness :
    (svdEx (sliceAt lastCoreEx [2, 3])).2.1 = [3, 2]
    ∧ ∃ r, r ≤ ([(3 : ℚ), 2]).length ∧ whereGt [3, 2] (1 / 1000) = List.range r
      ∧ (∀ i, i < r → (1 : ℚ) / 1000 < ([(3 : ℚ), 2]).getD i 0 / ([(3 : ℚ), 2]).getD 0 0)
      ∧ (∀ i, r ≤ i → i < ([(3 : ℚ), 2]).length →
          ¬ (1 : ℚ) / 1000 < ([(3 : ℚ), 2]).getD i 0 / ([(3 : ℚ), 2]).getD 0 0) :=
  ⟨by with_unfolding_all decide,
   retained_indices_initial_segment svdEx lastCoreEx [2, 3] (1 / 1000) [3, 2]
     (by with_unfolding_all decide) (by with_unfolding_all decide)
     (by with_unfolding_all decide) (by with_unfolding_all decide)⟩

/-- Claim C9 (confirmed): for a fixed last core, index sets and SVD, raising
the threshold never increases the retained rank of `_reduced_matrix`, measured
as the number of columns of the returned `U`. -/
theorem rank_antitone_in_threshold (svd : SvdOracle) (lastCore : Core4) (xI yI : List Nat)
    (t1 t2 : ℚ) (h : t1 ≤ t2) :
    numCols (reducedMatrix svd lastCore xI yI t2).u
      ≤ numCols (reducedMatrix svd lastCore xI yI t1).u := by
  simp only [reducedMatrix]
  cases hu : (svd (sliceAt lastCore xI)).1 with
  | nil => simp [selCols, numCols]
  | cons r0 rest =>
    simp only [selCols, numCols, List.map_cons, List.headD_cons]
    rw [List.length_map, List.length_map]
    unfold whereGt
    apply filter_length_mono
    intro a ha
    exact decide_eq_true (lt_of_le_of_lt h (of_decide_eq_true ha))

/-- Witness for `rank_antitone_in_threshold` at thresholds `1/1000 ≤ 3/4`. -/
theorem rank_antitone_in_threshold_witness :
    (1 : ℚ) / 1000 ≤ 3 / 4
    ∧ numCols (reducedMatrix svdEx lastCoreEx [2, 3] [0, 1] (3 / 4)).u
      ≤ numCols (reducedMatrix svdEx lastCoreEx [2, 3] [0, 1] (1 / 1000)).u :=
  ⟨by with_unfolding_all decide,
   rank_antitone_in_threshold svdEx lastCoreEx [2, 3] [0, 1] (1 / 1000) (3 / 4)
     (by with_unfolding_all decide)⟩

/-- Claim C10 (confirmed): the last core used by `_reduced_matrix` is the value
captured once after orthonormalization — the per-pair overwrite of
`psi.cores[-1]` only rebinds the core-list slot and advanced indexing hands the
SVD an independent copy of the x-slice — so the eigenvalue arrays of a batch
call are a pure map over the pairs of a function of the orthonormalized Ψ's
last core alone, and each pair's array equals the one produced by a
single-pair call. -/
theorem eigenvalues_from_captured_last_core (svd : SvdOracle) (eig : EigOracle)
    (psiOrtho : List Core4) (pairs : List (List Nat × List Nat)) :
    (amusetBatch svd eig psiOrtho pairs).1
      = pairs.map (fun p =>
          (amusetIter svd eig (psiOrtho.getD (psiOrtho.length - 1) []) p.1 p.2).eigenvalues)
    ∧ (amusetBatch svd eig psiOrtho pairs).1
      = pairs.map (fun p => (amusetBatch svd eig psiOrtho [p]).1.getD 0 []) := by
  constructor
  · simp only [amusetBatch]
    exact amusetLoop_evs svd eig _ pairs psiOrtho
  · simp only [amusetBatch]
    rw [amusetLoop_evs svd eig _ pairs psiOrtho]
    apply List.map_congr_left
    intro p hp
    rw [amusetLoop_evs svd eig _ [p] psiOrtho]
    rfl

end TEDMD
